import Mathlib

/-!
Shallow embedding of the guard-walk simulator from src/aoc06/src/main.rs
(Advent of Code 2024, day 6), together with proofs settling the claims
about its specification.

Rust `i32` coordinates are modelled as `Int` (the values involved stay
far below 2^31: source coordinates come from list indices and change by
at most one per step, so wrap-around never occurs and `Int` is faithful).
Rust `Vec<Vec<MapTile>>` is modelled as `List (List MapTile)`, the
`HashSet`s as lists used as sets (membership-tested insertion).
The `while` loops are modelled with explicit fuel: `none` means the fuel
ran out, so "the loop terminates" is "some fuel returns `some`".
-/

namespace Aoc06

/-- Embedding of `enum MapTile { Empty, Blocked }`. -/
inductive MapTile : Type where
  | Empty : MapTile
  | Blocked : MapTile
deriving DecidableEq, Repr

/-- Embedding of `enum Orientation { Up, Right, Down, Left }`. -/
inductive Orientation : Type where
  | Up : Orientation
  | Right : Orientation
  | Down : Orientation
  | Left : Orientation
deriving DecidableEq, Repr

/-- Embedding of `Orientation::right90`: the fixed clockwise successor. -/
def Orientation.right90 : Orientation → Orientation
  | Orientation.Up => Orientation.Right
  | Orientation.Right => Orientation.Down
  | Orientation.Down => Orientation.Left
  | Orientation.Left => Orientation.Up

/-- Embedding of `struct Guard { row: i32, col: i32, orientation: Orientation }`. -/
structure Guard : Type where
  row : Int
  col : Int
  orientation : Orientation
deriving DecidableEq, Repr

/-- Embedding of `Guard::next`: the cell one step ahead of the guard. -/
def Guard.next (g : Guard) : Int × Int :=
  match g.orientation with
  | Orientation.Up => (g.row - 1, g.col)
  | Orientation.Right => (g.row, g.col + 1)
  | Orientation.Down => (g.row + 1, g.col)
  | Orientation.Left => (g.row, g.col - 1)

/-- Embedding of `Guard::advance` (purely: the mutated guard is returned). -/
def Guard.advance (g : Guard) : Guard :=
  { g with row := g.next.1, col := g.next.2 }

/-- Embedding of `Guard::right90` (purely: the mutated guard is returned). -/
def Guard.right90 (g : Guard) : Guard :=
  { g with orientation := g.orientation.right90 }

namespace Map

/-- Embedding of `Map::rows` for `Vec<Vec<MapTile>>`: the number of rows. -/
def rows (m : List (List MapTile)) : Int :=
  (m.length : Int)

/-- Embedding of `Map::cols`: 0 for the empty map, otherwise the length of
row 0 (the source comments "Assume a rectangular map" and reads `self[0]`). -/
def cols (m : List (List MapTile)) : Int :=
  match m with
  | [] => 0
  | r :: _ => (r.length : Int)

/-- Embedding of `Map::on_map`: bounds check against `rows` and `cols`. -/
def on_map (m : List (List MapTile)) (row col : Int) : Bool :=
  decide (0 ≤ row) && decide (0 ≤ col) && decide (row < rows m) && decide (col < cols m)

/-- Embedding of `Map::get`: `None` off the map, otherwise the tile at
`self[row][col]`.  The source's direct indexing (which would panic on an
out-of-range inner index) is modelled by the nested `List.get?` lookups;
for rectangular maps the lookup provably succeeds whenever `on_map` holds. -/
def get (m : List (List MapTile)) (row col : Int) : Option MapTile :=
  if on_map m row col then (m.get? row.toNat).bind (fun r => r.get? col.toNat)
  else none

end Map

/-- Rectangularity invariant of the data model: every row has the length of
row 0 (so of `Map.cols`). -/
def Rectangular (m : List (List MapTile)) : Prop :=
  ∀ r ∈ m, (r.length : Int) = Map.cols m

instance : DecidablePred Rectangular := fun m =>
  show Decidable (∀ r ∈ m, (r.length : Int) = Map.cols m) from inferInstance

/-- Embedding of `struct MapState { map, guard }`. -/
structure MapState : Type where
  map : List (List MapTile)
  guard : Guard
deriving DecidableEq, Repr

/-- Embedding of `MapState::on_map`. -/
def MapState.on_map (s : MapState) : Bool :=
  Map.on_map s.map s.guard.row s.guard.col

/-- Embedding of `MapState::blocked`: the tile ahead exists and is Blocked
(`is_some_and(|tile| matches!(tile, MapTile::Blocked))`). -/
def MapState.blocked (s : MapState) : Bool :=
  match Map.get s.map s.guard.next.1 s.guard.next.2 with
  | some MapTile.Blocked => true
  | some MapTile.Empty => false
  | none => false

/-- Embedding of `MapState::advance`: turn in place when blocked ahead,
otherwise step forward. -/
def MapState.advance (s : MapState) : MapState :=
  if s.blocked then { s with guard := s.guard.right90 }
  else { s with guard := s.guard.advance }

/-- Embedding of the loop body of `MapState::has_loop`, with explicit fuel.
`visited` is the accumulated pose set (the source's `HashSet<Guard>`);
`none` means the fuel ran out before the loop returned. -/
def hasLoopAux : Nat → List Guard → MapState → Option Bool
  | 0, _, _ => none
  | fuel + 1, visited, s =>
    if s.on_map then
      if s.guard ∈ visited then some true
      else hasLoopAux fuel (s.guard :: visited) s.advance
    else some false

/-- Number of distinct on-map poses: `rows * cols * 4`. -/
def numPoses (m : List (List MapTile)) : Nat :=
  (Map.rows m).toNat * (Map.cols m).toNat * 4

/-- Embedding of `MapState::has_loop`, run with fuel `rows*cols*4 + 1`,
which is proved sufficient (`hasLoopAux_isSome`). -/
def MapState.has_loop (s : MapState) : Option Bool :=
  hasLoopAux (numPoses s.map + 1) [] s

/-- Instrumented variant of `hasLoopAux` that also returns the final
visited-pose set, used to state which poses the run passes through.
Its verdict component coincides with `hasLoopAux` (`hasLoopVisited_fst`). -/
def hasLoopVisited : Nat → List Guard → MapState → Option (Bool × List Guard)
  | 0, _, _ => none
  | fuel + 1, visited, s =>
    if s.on_map then
      if s.guard ∈ visited then some (true, visited)
      else hasLoopVisited fuel (s.guard :: visited) s.advance
    else some (false, visited)

/-- Embedding of the part-1 `while` loop of `main` with explicit fuel:
insert the guard's position into the visited set, then tick; return the
final visited set when the guard leaves the map, `none` when fuel runs out. -/
def part1Aux : Nat → List (Int × Int) → MapState → Option (List (Int × Int))
  | 0, _, _ => none
  | fuel + 1, visited, s =>
    if s.on_map then
      part1Aux fuel
        (if (s.guard.row, s.guard.col) ∈ visited then visited
         else (s.guard.row, s.guard.col) :: visited)
        s.advance
    else some visited

/-- The grid of the part-2 trial at `(row, col)`:
`map_state.map[row][col] = MapTile::Blocked` applied to a clone. -/
def trialState (s : MapState) (row col : Nat) : MapState :=
  { s with map := s.map.set row ((s.map.getD row []).set col MapTile.Blocked) }

/-- Embedding of `matches!(tile, MapTile::Blocked)`. -/
def isBlockedTile : MapTile → Bool
  | MapTile.Blocked => true
  | MapTile.Empty => false

/-- Embedding of the part-2 loop of `main`: iterate the rows and, within
each row, its tiles, in order; skip cells that are Blocked or the guard's
start; otherwise count the trial when `has_loop` reports a loop. -/
def part2 (s : MapState) : Nat :=
  (s.map.enum.map (fun rl =>
    rl.2.enum.countP (fun ct =>
      !(isBlockedTile ct.2 ||
          (decide (s.guard.row = (rl.1 : Int)) && decide (s.guard.col = (ct.1 : Int)))) &&
      decide ((trialState s rl.1 ct.1).has_loop = some true)))).sum

/-- Embedding of `TryFrom<char> for MapTile` (`Ok` as `some`, `Err` as `none`). -/
def parseTile (c : Char) : Option MapTile :=
  if c = '.' then some MapTile.Empty
  else if c = '#' then some MapTile.Blocked
  else none

/-- Embedding of `TryFrom<char> for Orientation`. -/
def parseOrient (c : Char) : Option Orientation :=
  if c = '^' then some Orientation.Up
  else if c = '>' then some Orientation.Right
  else if c = 'v' then some Orientation.Down
  else if c = '<' then some Orientation.Left
  else none

/-- Inner loop of `MapState::parse` over the characters of one line,
carrying the column index and the guard accumed so far.  A guard marker
pushes `Empty` and overwrites the guard; any other character goes through
`MapTile::try_from`, whose `expect` (a panic) is modelled as `none`. -/
def parseRowAux (row : Nat) : Nat → List Char → Guard → Option (List MapTile × Guard)
  | _, [], g => some ([], g)
  | col, c :: rest, g =>
    match parseOrient c with
    | some o =>
      (parseRowAux row (col + 1) rest ⟨(row : Int), (col : Int), o⟩).map
        (fun p => (MapTile.Empty :: p.1, p.2))
    | none =>
      match parseTile c with
      | some t => (parseRowAux row (col + 1) rest g).map (fun p => (t :: p.1, p.2))
      | none => none

/-- Outer loop of `MapState::parse` over the lines, carrying the row index. -/
def parseAux : Nat → List String → Guard → Option (List (List MapTile) × Guard)
  | _, [], g => some ([], g)
  | row, l :: rest, g =>
    (parseRowAux row 0 l.toList g).bind (fun p =>
      (parseAux (row + 1) rest p.2).map (fun q => (p.1 :: q.1, q.2)))

/-- Embedding of `MapState::parse`: the guard starts as `(0, 0, Up)` and is
overwritten by each guard marker encountered; `none` models the source's
panic on an unrecognized character. -/
def MapState.parse (lines : List String) : Option MapState :=
  (parseAux 0 lines ⟨0, 0, Orientation.Up⟩).map (fun p => ⟨p.1, p.2⟩)

/-- Character is one of the six accepted by `MapState::parse`. -/
def validCharB (c : Char) : Bool :=
  decide (c = '.') || decide (c = '#') || (parseOrient c).isSome

/-- The guard poses denoted by the markers of one line, from column `col`
on, in left-to-right order. -/
def rowMarkersFrom (row : Nat) : Nat → List Char → List Guard
  | _, [] => []
  | col, c :: rest =>
    match parseOrient c with
    | some o => ⟨(row : Int), (col : Int), o⟩ :: rowMarkersFrom row (col + 1) rest
    | none => rowMarkersFrom row (col + 1) rest

/-- The guard poses denoted by the markers of the lines from row `row` on,
in row-major order. -/
def markersFrom : Nat → List String → List Guard
  | _, [] => []
  | row, l :: rest => rowMarkersFrom row 0 l.toList ++ markersFrom (row + 1) rest

/-- All guard markers of the input, in row-major order. -/
def markersOf (lines : List String) : List Guard :=
  markersFrom 0 lines

/-- Raw nested lookup `m[r][c]` as an `Option`, with no bounds check
against `cols` (used to state facts about possibly ragged parsed maps). -/
def lookup2 (m : List (List MapTile)) (r c : Nat) : Option MapTile :=
  (m.get? r).bind (fun row => row.get? c)

/-- The state after `n` simulation ticks (`n` applications of
`MapState::advance`). -/
def stepN : MapState → Nat → MapState
  | s, 0 => s
  | s, n + 1 => stepN s.advance n

/-- The part-1 while loop never terminates from state `s`: every fuel
bound is exhausted whatever the accumulated visited set. -/
def Part1Diverges (s : MapState) : Prop :=
  ∀ fuel visited, part1Aux fuel visited s = none

/-! Basic lemmas about the tick and the trajectory. -/

theorem advance_map (s : MapState) : s.advance.map = s.map := by
  unfold MapState.advance
  split <;> rfl

theorem stepN_map (s : MapState) (n : Nat) : (stepN s n).map = s.map := by
  induction n generalizing s with
  | zero => rfl
  | succ n ih => rw [stepN, ih, advance_map]

theorem stepN_succ (s : MapState) (n : Nat) : stepN s (n + 1) = (stepN s n).advance := by
  induction n generalizing s with
  | zero => rfl
  | succ n ih => rw [stepN, ih, stepN]

theorem blocked_iff (s : MapState) :
    s.blocked = true ↔ Map.get s.map s.guard.next.1 s.guard.next.2 = some MapTile.Blocked := by
  unfold MapState.blocked
  rcases h : Map.get s.map s.guard.next.1 s.guard.next.2 with _ | t
  · simp
  · cases t <;> simp

theorem on_map_iff (m : List (List MapTile)) (row col : Int) :
    Map.on_map m row col = true ↔
      0 ≤ row ∧ row < Map.rows m ∧ 0 ≤ col ∧ col < Map.cols m := by
  unfold Map.on_map
  simp [Bool.and_eq_true, decide_eq_true_eq]
  tauto

/-- Claim C9: the forward step deltas are Up=(-1,0), Right=(0,+1),
Down=(+1,0), Left=(0,-1); the right turn follows the cycle
Up→Right→Down→Left→Up; four right turns are the identity. -/
theorem orientation_geometry :
    (∀ r c : Int,
      (Guard.mk r c Orientation.Up).next = (r - 1, c) ∧
      (Guard.mk r c Orientation.Right).next = (r, c + 1) ∧
      (Guard.mk r c Orientation.Down).next = (r + 1, c) ∧
      (Guard.mk r c Orientation.Left).next = (r, c - 1)) ∧
    (Orientation.right90 Orientation.Up = Orientation.Right ∧
     Orientation.right90 Orientation.Right = Orientation.Down ∧
     Orientation.right90 Orientation.Down = Orientation.Left ∧
     Orientation.right90 Orientation.Left = Orientation.Up) ∧
    (∀ o : Orientation, o.right90.right90.right90.right90 = o) := by
  refine ⟨fun r c => ⟨rfl, rfl, rfl, rfl⟩, ⟨rfl, rfl, rfl, rfl⟩, fun o => ?_⟩
  cases o <;> rfl

/-- Claim C3: each tick does exactly one of two things.  When the tile one
step ahead exists and is Blocked, the guard turns right in place (position
unchanged); otherwise it moves forward one cell (orientation unchanged). -/
theorem advance_tick_dichotomy (s : MapState) :
    (Map.get s.map s.guard.next.1 s.guard.next.2 = some MapTile.Blocked →
      s.advance.guard.row = s.guard.row ∧ s.advance.guard.col = s.guard.col ∧
      s.advance.guard.orientation = s.guard.orientation.right90) ∧
    (Map.get s.map s.guard.next.1 s.guard.next.2 ≠ some MapTile.Blocked →
      s.advance.guard.row = s.guard.next.1 ∧ s.advance.guard.col = s.guard.next.2 ∧
      s.advance.guard.orientation = s.guard.orientation) := by
  constructor
  · intro h
    have hb : s.blocked = true := (blocked_iff s).mpr h
    simp [MapState.advance, hb, Guard.right90]
  · intro h
    have hb : s.blocked = false := by
      rcases Bool.eq_false_or_eq_true s.blocked with hb | hb
      · exact absurd ((blocked_iff s).mp hb) h
      · exact hb
    simp [MapState.advance, hb, Guard.advance]

theorem advance_tick_dichotomy_witness :
    (MapState.advance ⟨[[MapTile.Blocked]], ⟨1, 0, Orientation.Up⟩⟩).guard.row = 1 ∧
      (MapState.advance ⟨[[MapTile.Blocked]], ⟨1, 0, Orientation.Up⟩⟩).guard.col = 0 ∧
      (MapState.advance ⟨[[MapTile.Blocked]], ⟨1, 0, Orientation.Up⟩⟩).guard.orientation =
        Orientation.Up.right90 :=
  (advance_tick_dichotomy ⟨[[MapTile.Blocked]], ⟨1, 0, Orientation.Up⟩⟩).1 (by decide)

/-- Claim C8: for a rectangular grid, the tile lookup returns `none`
exactly off `[0,rows) × [0,cols)`, and some tile (no panic, no error) on
every in-bounds cell. -/
theorem tile_lookup_contract (m : List (List MapTile)) (hrect : Rectangular m) (row col : Int) :
    (Map.get m row col = none ↔
      ¬(0 ≤ row ∧ row < Map.rows m ∧ 0 ≤ col ∧ col < Map.cols m)) ∧
    ((0 ≤ row ∧ row < Map.rows m ∧ 0 ≤ col ∧ col < Map.cols m) →
      ∃ t, Map.get m row col = some t) := by
  have hsome : (0 ≤ row ∧ row < Map.rows m ∧ 0 ≤ col ∧ col < Map.cols m) →
      ∃ t, Map.get m row col = some t := by
    rintro h
    obtain ⟨h0r, hrR, h0c, hcC⟩ := h
    have hrows : Map.rows m = (m.length : Int) := rfl
    have hrn : row.toNat < m.length := by omega
    have hrow : m.get? row.toNat = some (m.get ⟨row.toNat, hrn⟩) := List.get?_eq_get hrn
    have hmem : m.get ⟨row.toNat, hrn⟩ ∈ m := List.get_mem m row.toNat hrn
    have hlen : ((m.get ⟨row.toNat, hrn⟩).length : Int) = Map.cols m := hrect _ hmem
    have hcn : col.toNat < (m.get ⟨row.toNat, hrn⟩).length := by omega
    have hcol : (m.get ⟨row.toNat, hrn⟩).get? col.toNat =
        some ((m.get ⟨row.toNat, hrn⟩).get ⟨col.toNat, hcn⟩) := List.get?_eq_get hcn
    refine ⟨(m.get ⟨row.toNat, hrn⟩).get ⟨col.toNat, hcn⟩, ?_⟩
    have honb : Map.on_map m row col = true := (on_map_iff m row col).mpr ⟨h0r, hrR, h0c, hcC⟩
    unfold Map.get
    rw [if_pos honb, hrow]
    simp [hcol]
  refine ⟨?_, hsome⟩
  by_cases h : 0 ≤ row ∧ row < Map.rows m ∧ 0 ≤ col ∧ col < Map.cols m
  · obtain ⟨t, ht⟩ := hsome h
    simp [ht, h]
  · have honb : Map.on_map m row col = false := by
      rcases Bool.eq_false_or_eq_true (Map.on_map m row col) with hb | hb
      · exact absurd ((on_map_iff m row col).mp hb) h
      · exact hb
    unfold Map.get
    rw [if_neg (by simp [honb])]
    simp [h]

theorem tile_lookup_contract_witness :
    (Map.get [[MapTile.Empty]] 0 0 = none ↔
      ¬(0 ≤ (0 : Int) ∧ (0 : Int) < Map.rows [[MapTile.Empty]] ∧
        0 ≤ (0 : Int) ∧ (0 : Int) < Map.cols [[MapTile.Empty]])) ∧
    ((0 ≤ (0 : Int) ∧ (0 : Int) < Map.rows [[MapTile.Empty]] ∧
        0 ≤ (0 : Int) ∧ (0 : Int) < Map.cols [[MapTile.Empty]]) →
      ∃ t, Map.get [[MapTile.Empty]] 0 0 = some t) :=
  tile_lookup_contract [[MapTile.Empty]] (by decide) 0 0

/-! Termination of the loop detector: a duplicate-free set of on-map poses
has at most `rows*cols*4` elements, so the fuel `rows*cols*4 + 1` always
suffices. -/

theorem nodup_on_map_length_le (m : List (List MapTile)) (v : List Guard)
    (hn : v.Nodup) (hall : ∀ g ∈ v, Map.on_map m g.row g.col = true) :
    v.length ≤ numPoses m := by
  classical
  have hinj : ∀ g1 ∈ v, ∀ g2 ∈ v,
      (g1.row.toNat, g1.col.toNat, g1.orientation) =
        (g2.row.toNat, g2.col.toNat, g2.orientation) → g1 = g2 := by
    intro g1 h1 g2 h2 hf
    obtain ⟨hr1, _, hc1, _⟩ := (on_map_iff m g1.row g1.col).mp (hall g1 h1)
    obtain ⟨hr2, _, hc2, _⟩ := (on_map_iff m g2.row g2.col).mp (hall g2 h2)
    obtain ⟨r1, c1, o1⟩ := g1
    obtain ⟨r2, c2, o2⟩ := g2
    simp only [Prod.mk.injEq] at hf
    obtain ⟨hr, hc, ho⟩ := hf
    simp only at hr1 hc1 hr2 hc2
    have : r1 = r2 := by omega
    have : c1 = c2 := by omega
    simp_all
  have hnd : (v.map (fun g => (g.row.toNat, g.col.toNat, g.orientation))).Nodup :=
    List.Nodup.map_on hinj hn
  have hsub : (v.map (fun g => (g.row.toNat, g.col.toNat, g.orientation))).toFinset ⊆
      (Finset.range (Map.rows m).toNat) ×ˢ (Finset.range (Map.cols m).toNat) ×ˢ
        ({Orientation.Up, Orientation.Right, Orientation.Down, Orientation.Left} :
          Finset Orientation) := by
    intro x hx
    rw [List.mem_toFinset, List.mem_map] at hx
    obtain ⟨g, hg, hgx⟩ := hx
    obtain ⟨hr0, hrR, hc0, hcC⟩ := (on_map_iff m g.row g.col).mp (hall g hg)
    subst hgx
    simp only [Finset.mem_product, Finset.mem_range, Finset.mem_insert, Finset.mem_singleton]
    refine ⟨by omega, by omega, ?_⟩
    cases g.orientation <;> simp
  have hcard := Finset.card_le_card hsub
  rw [List.toFinset_card_of_nodup hnd] at hcard
  rw [List.length_map] at hcard
  calc v.length ≤ _ := hcard
    _ ≤ numPoses m := by
        rw [Finset.card_product, Finset.card_product, Finset.card_range, Finset.card_range]
        have h4 : ({Orientation.Up, Orientation.Right, Orientation.Down, Orientation.Left} :
            Finset Orientation).card = 4 := by decide
        rw [h4, numPoses, Nat.mul_assoc]

theorem hasLoopAux_isSome (fuel : Nat) (v : List Guard) (s : MapState)
    (hn : v.Nodup) (hall : ∀ g ∈ v, Map.on_map s.map g.row g.col = true)
    (hfuel : numPoses s.map < fuel + v.length) :
    (hasLoopAux fuel v s).isSome = true := by
  induction fuel generalizing v s with
  | zero =>
    have := nodup_on_map_length_le s.map v hn hall
    omega
  | succ fuel ih =>
    rw [hasLoopAux]
    by_cases hon : s.on_map
    · rw [if_pos hon]
      by_cases hmem : s.guard ∈ v
      · rw [if_pos hmem]; rfl
      · rw [if_neg hmem]
        apply ih (s.guard :: v) s.advance (List.nodup_cons.mpr ⟨hmem, hn⟩)
        · intro g hg
          rw [advance_map]
          rcases List.mem_cons.mp hg with hgeq | hg2
          · subst hgeq; exact hon
          · exact hall g hg2
        · rw [advance_map]
          simp only [List.length_cons]
          omega
    · rw [if_neg hon]; rfl

/-- Claim C7: on every finite grid the loop detector terminates within the
fuel bound `rows*cols*4 + 1` loop iterations — at most `rows*cols*4` of
which perform a tick, the last one only returning — because `rows*cols*4`
bounds the number of distinct on-map poses. -/
theorem has_loop_terminates_within_pose_bound (s : MapState) :
    ∃ b, s.has_loop = some b := by
  have h := hasLoopAux_isSome (numPoses s.map + 1) [] s List.nodup_nil
    (by intro g hg; simp at hg) (by simp)
  exact Option.isSome_iff_exists.mp h

/-! Declarative characterization of the loop detector: relate the fueled
run to the tick trajectory `stepN`. -/

theorem hasLoopAux_eq_true_iff (fuel : Nat) (v : List Guard) (s : MapState) :
    hasLoopAux fuel v s = some true ↔
      ∃ j < fuel, (∀ k ≤ j, (stepN s k).on_map = true) ∧
        ((stepN s j).guard ∈ v ∨ ∃ i < j, (stepN s i).guard = (stepN s j).guard) := by
  induction fuel generalizing v s with
  | zero => simp [hasLoopAux]
  | succ fuel ih =>
    rw [hasLoopAux]
    by_cases hon : s.on_map
    · rw [if_pos hon]
      by_cases hmem : s.guard ∈ v
      · rw [if_pos hmem]
        constructor
        · intro _
          refine ⟨0, Nat.succ_pos _, ?_, Or.inl hmem⟩
          intro k hk
          have hk0 : k = 0 := Nat.le_zero.mp hk
          subst hk0
          exact hon
        · intro _; rfl
      · rw [if_neg hmem, ih]
        constructor
        · rintro ⟨j, hj, hpre, hrep⟩
          refine ⟨j + 1, by omega, ?_, ?_⟩
          · intro k hk
            cases k with
            | zero => exact hon
            | succ k => exact hpre k (by omega)
          · rcases hrep with hmem2 | ⟨i, hi, heq⟩
            · rcases List.mem_cons.mp hmem2 with heq | hmem3
              · exact Or.inr ⟨0, by omega, heq.symm⟩
              · exact Or.inl hmem3
            · exact Or.inr ⟨i + 1, by omega, heq⟩
        · rintro ⟨j, hj, hpre, hrep⟩
          cases j with
          | zero =>
            rcases hrep with hmem2 | ⟨i, hi, _⟩
            · exact absurd hmem2 hmem
            · omega
          | succ j =>
            refine ⟨j, by omega, ?_, ?_⟩
            · intro k hk
              exact hpre (k + 1) (by omega)
            · rcases hrep with hmem2 | ⟨i, hi, heq⟩
              · exact Or.inl (List.mem_cons.mpr (Or.inr hmem2))
              · cases i with
                | zero => exact Or.inl (List.mem_cons.mpr (Or.inl heq.symm))
                | succ i => exact Or.inr ⟨i, by omega, heq⟩
    · rw [if_neg hon]
      constructor
      · intro h; simp at h
      · rintro ⟨j, hj, hpre, _⟩
        have h0 := hpre 0 (Nat.zero_le _)
        exact absurd h0 (by simpa using hon)

/-- A pose repeat along an everywhere-on-map prefix already occurs with
index below `rows*cols*4 + 1`: the first repeat is preceded by pairwise
distinct on-map poses. -/
theorem exists_repeat_lt_bound (s : MapState)
    (h : ∃ j, (∀ k ≤ j, (stepN s k).on_map = true) ∧
        ∃ i < j, (stepN s i).guard = (stepN s j).guard) :
    ∃ j < numPoses s.map + 1, (∀ k ≤ j, (stepN s k).on_map = true) ∧
      ((stepN s j).guard ∈ ([] : List Guard) ∨
        ∃ i < j, (stepN s i).guard = (stepN s j).guard) := by
  classical
  set j0 := Nat.find h with hj0
  have hP0 := Nat.find_spec h
  have hmin : ∀ i, i < j0 → ¬((∀ k ≤ i, (stepN s k).on_map = true) ∧
      ∃ a < i, (stepN s a).guard = (stepN s i).guard) := fun i hi => Nat.find_min h hi
  have hnd : ((List.range j0).map (fun k => (stepN s k).guard)).Nodup := by
    apply List.Nodup.map_on
    · intro a ha b hb heq
      rw [List.mem_range] at ha hb
      rcases Nat.lt_trichotomy a b with hab | hab | hab
      · exfalso
        exact hmin b hb ⟨fun k hk => hP0.1 k (by omega), a, hab, heq⟩
      · exact hab
      · exfalso
        exact hmin a ha ⟨fun k hk => hP0.1 k (by omega), b, hab, heq.symm⟩
    · exact List.nodup_range j0
  have hall : ∀ g ∈ (List.range j0).map (fun k => (stepN s k).guard),
      Map.on_map s.map g.row g.col = true := by
    intro g hg
    rw [List.mem_map] at hg
    obtain ⟨k, hk, hkg⟩ := hg
    rw [List.mem_range] at hk
    have hon := hP0.1 k (by omega)
    rw [MapState.on_map, stepN_map] at hon
    rw [← hkg]
    exact hon
  have hlen := nodup_on_map_length_le s.map _ hnd hall
  rw [List.length_map, List.length_range] at hlen
  exact ⟨j0, by omega, hP0.1, Or.inr hP0.2⟩

/-- Composition of trajectories: stepping `a + b` ticks is stepping `b`
ticks from the state after `a` ticks. -/
theorem stepN_add (s : MapState) (a b : Nat) : stepN s (a + b) = stepN (stepN s a) b := by
  induction a generalizing s with
  | zero => rw [Nat.zero_add]; rfl
  | succ a ih =>
    have h1 : a + 1 + b = (a + b) + 1 := by omega
    rw [h1, stepN, stepN, ih]

/-- A full-pose repeat along an on-map prefix makes the trajectory
periodic, so the guard never leaves the grid; contrapositively, a
trajectory that leaves the grid has no such repeat. -/
theorem no_repeat_of_exit (s : MapState) (n : Nat)
    (hoff : (stepN s n).on_map = false) :
    ¬∃ j, (∀ k ≤ j, (stepN s k).on_map = true) ∧
      ∃ i < j, (stepN s i).guard = (stepN s j).guard := by
  rintro ⟨j, hpre, i, hij, heq⟩
  have hstate : stepN s i = stepN s j := by
    have hm : (stepN s i).map = (stepN s j).map := by rw [stepN_map, stepN_map]
    conv_lhs => rw [show stepN s i = ⟨(stepN s i).map, (stepN s i).guard⟩ from rfl]
    rw [hm, heq]
  have hall : ∀ m, (stepN s m).on_map = true := by
    intro m
    induction m using Nat.strong_induction_on with
    | _ m ihm =>
      by_cases hm : m ≤ j
      · exact hpre m hm
      · have hmj : j ≤ m := by omega
        have hrw : stepN s m = stepN s (i + (m - j)) := by
          have h1 : m = j + (m - j) := by omega
          rw [h1, stepN_add, ← hstate, ← stepN_add]
          have h2 : j + (m - j) - j = m - j := by omega
          rw [h2]
        rw [hrw]
        exact ihm (i + (m - j)) (by omega)
  rw [hall n] at hoff
  simp at hoff

/-- The loop detector reports `Loop` exactly when the trajectory repeats a
full pose while staying on the map (shared characterization lemma). -/
theorem has_loop_true_iff_repeat (s : MapState) :
    s.has_loop = some true ↔
      ∃ j, (∀ k ≤ j, (stepN s k).on_map = true) ∧
        ∃ i < j, (stepN s i).guard = (stepN s j).guard := by
  rw [MapState.has_loop, hasLoopAux_eq_true_iff]
  constructor
  · rintro ⟨j, _, hpre, hrep⟩
    rcases hrep with hmem | hrep
    · simp at hmem
    · exact ⟨j, hpre, hrep⟩
  · intro h
    obtain ⟨j, hj, hpre, hrep⟩ := exists_repeat_lt_bound s h
    exact ⟨j, hj, hpre, hrep⟩

/-- The loop detector run always reaches a verdict with the standard fuel
(shared totality lemma). -/
theorem has_loop_isSome (s : MapState) : ∃ b, s.has_loop = some b := by
  have h := hasLoopAux_isSome (numPoses s.map + 1) [] s List.nodup_nil
    (by intro g hg; simp at hg) (by simp)
  exact Option.isSome_iff_exists.mp h

/-- The loop detector reports `Exits` when the guard leaves the grid
(shared lemma; the repeat case is excluded by `no_repeat_of_exit`). -/
theorem has_loop_false_of_exit (s : MapState) (n : Nat)
    (hoff : (stepN s n).on_map = false) : s.has_loop = some false := by
  obtain ⟨b, hb⟩ := has_loop_isSome s
  cases b with
  | true => exact absurd ((has_loop_true_iff_repeat s).mp hb) (no_repeat_of_exit s n hoff)
  | false => exact hb

/-- Claim C2: the loop detector records full poses (position and
orientation) and returns `Loop` (`some true`) exactly when the trajectory
shows the same full pose twice while staying on the map; if the guard
leaves the grid before any pose repeats, it returns `Exits` (`some false`). -/
theorem has_loop_verdict_characterization (s : MapState) :
    (s.has_loop = some true ↔
      ∃ j, (∀ k ≤ j, (stepN s k).on_map = true) ∧
        ∃ i < j, (stepN s i).guard = (stepN s j).guard) ∧
    (∀ n, (stepN s n).on_map = false →
      (¬∃ j, (∀ k ≤ j, (stepN s k).on_map = true) ∧
        ∃ i < j, (stepN s i).guard = (stepN s j).guard) →
      s.has_loop = some false) := by
  refine ⟨has_loop_true_iff_repeat s, ?_⟩
  intro n hoff hnorep
  obtain ⟨b, hb⟩ := has_loop_isSome s
  cases b with
  | true => exact absurd ((has_loop_true_iff_repeat s).mp hb) hnorep
  | false => exact hb

theorem has_loop_verdict_characterization_witness :
    MapState.has_loop ⟨[[MapTile.Empty]], ⟨0, 0, Orientation.Up⟩⟩ = some false := by
  refine (has_loop_verdict_characterization ⟨[[MapTile.Empty]], ⟨0, 0, Orientation.Up⟩⟩).2 1
    (by decide) ?_
  rintro ⟨j, hpre, i, hij, _⟩
  rcases Nat.eq_zero_or_pos j with hj | hj
  · omega
  · have h1 := hpre 1 hj
    have h2 : (stepN ⟨[[MapTile.Empty]], ⟨0, 0, Orientation.Up⟩⟩ 1).on_map = false := by decide
    simp [h2] at h1

/-! Relating the instrumented loop-detector run and the part-1 run to the
trajectory. -/

theorem hasLoopVisited_fst (fuel : Nat) (v : List Guard) (s : MapState) :
    (hasLoopVisited fuel v s).map Prod.fst = hasLoopAux fuel v s := by
  induction fuel generalizing v s with
  | zero => rfl
  | succ fuel ih =>
    rw [hasLoopVisited, hasLoopAux]
    by_cases hon : s.on_map
    · rw [if_pos hon, if_pos hon]
      by_cases hmem : s.guard ∈ v
      · rw [if_pos hmem, if_pos hmem]; rfl
      · rw [if_neg hmem, if_neg hmem]
        exact ih _ _
    · rw [if_neg hon, if_neg hon]; rfl

theorem hasLoopVisited_false_mem (fuel : Nat) (v : List Guard) (s : MapState)
    (tr : List Guard) (h : hasLoopVisited fuel v s = some (false, tr)) (g : Guard) :
    g ∈ tr ↔ g ∈ v ∨ ∃ k, (∀ j ≤ k, (stepN s j).on_map = true) ∧ (stepN s k).guard = g := by
  induction fuel generalizing v s tr with
  | zero => simp [hasLoopVisited] at h
  | succ fuel ih =>
    rw [hasLoopVisited] at h
    by_cases hon : s.on_map
    · rw [if_pos hon] at h
      by_cases hmem : s.guard ∈ v
      · rw [if_pos hmem] at h
        simp at h
      · rw [if_neg hmem] at h
        rw [ih _ _ _ h]
        constructor
        · rintro (hv | ⟨k, hpre, hk⟩)
          · rcases List.mem_cons.mp hv with heq | hv2
            · subst heq
              refine Or.inr ⟨0, ?_, rfl⟩
              intro j hj
              have hj0 : j = 0 := Nat.le_zero.mp hj
              subst hj0
              exact hon
            · exact Or.inl hv2
          · refine Or.inr ⟨k + 1, ?_, hk⟩
            intro j hj
            cases j with
            | zero => exact hon
            | succ j => exact hpre j (by omega)
        · rintro (hv | ⟨k, hpre, hk⟩)
          · exact Or.inl (List.mem_cons.mpr (Or.inr hv))
          · cases k with
            | zero => exact Or.inl (List.mem_cons.mpr (Or.inl hk.symm))
            | succ k =>
              refine Or.inr ⟨k, ?_, hk⟩
              intro j hj
              exact hpre (j + 1) (by omega)
    · rw [if_neg hon] at h
      have htr : v = tr := by
        have := (Option.some.inj h)
        exact congrArg Prod.snd this
      subst htr
      constructor
      · exact Or.inl
      · rintro (hv | ⟨k, hpre, _⟩)
        · exact hv
        · exact absurd (hpre 0 (Nat.zero_le _)) hon

theorem part1Aux_mem (fuel : Nat) (v : List (Int × Int)) (s : MapState)
    (l : List (Int × Int)) (h : part1Aux fuel v s = some l) (p : Int × Int) :
    p ∈ l ↔ p ∈ v ∨ ∃ k, (∀ j ≤ k, (stepN s j).on_map = true) ∧
      ((stepN s k).guard.row, (stepN s k).guard.col) = p := by
  induction fuel generalizing v s with
  | zero => simp [part1Aux] at h
  | succ fuel ih =>
    rw [part1Aux] at h
    by_cases hon : s.on_map
    · rw [if_pos hon] at h
      rw [ih _ _ h]
      constructor
      · rintro (hv | ⟨k, hpre, hk⟩)
        · by_cases hmem : (s.guard.row, s.guard.col) ∈ v
          · rw [if_pos hmem] at hv
            exact Or.inl hv
          · rw [if_neg hmem] at hv
            rcases List.mem_cons.mp hv with heq | hv2
            · subst heq
              refine Or.inr ⟨0, ?_, rfl⟩
              intro j hj
              have hj0 : j = 0 := Nat.le_zero.mp hj
              subst hj0
              exact hon
            · exact Or.inl hv2
        · refine Or.inr ⟨k + 1, ?_, hk⟩
          intro j hj
          cases j with
          | zero => exact hon
          | succ j => exact hpre j (by omega)
      · rintro (hv | ⟨k, hpre, hk⟩)
        · by_cases hmem : (s.guard.row, s.guard.col) ∈ v
          · rw [if_pos hmem]
            exact Or.inl hv
          · rw [if_neg hmem]
            exact Or.inl (List.mem_cons.mpr (Or.inr hv))
        · cases k with
          | zero =>
            by_cases hmem : (s.guard.row, s.guard.col) ∈ v
            · rw [if_pos hmem]
              rw [show (stepN s 0).guard = s.guard from rfl] at hk
              rw [hk] at hmem
              exact Or.inl hmem
            · rw [if_neg hmem]
              rw [show (stepN s 0).guard = s.guard from rfl] at hk
              exact Or.inl (List.mem_cons.mpr (Or.inl hk.symm))
          | succ k =>
            refine Or.inr ⟨k, ?_, hk⟩
            intro j hj
            exact hpre (j + 1) (by omega)
    · rw [if_neg hon] at h
      have hl : v = l := Option.some.inj h
      subst hl
      constructor
      · exact Or.inl
      · rintro (hv | ⟨k, hpre, _⟩)
        · exact hv
        · exact absurd (hpre 0 (Nat.zero_le _)) hon

/-- The part-1 loop returns once the guard leaves the grid: fuel one more
than the exit index suffices, whatever the accumulated set. -/
theorem part1Aux_exits (n : Nat) (s : MapState) (hoff : (stepN s n).on_map = false)
    (v : List (Int × Int)) : ∃ l, part1Aux (n + 1) v s = some l := by
  induction n generalizing s v with
  | zero =>
    rw [part1Aux]
    rw [show stepN s 0 = s from rfl] at hoff
    rw [if_neg (by simp [hoff])]
    exact ⟨v, rfl⟩
  | succ n ih =>
    rw [part1Aux]
    by_cases hon : s.on_map
    · rw [if_pos hon]
      exact ih s.advance hoff _
    · rw [if_neg hon]
      exact ⟨v, rfl⟩

/-- Claim C4: when the walk eventually leaves the grid, the loop detector
on the same unmodified grid and pose returns `Exits`, and the positions of
the poses it passes through are exactly the visited-position set that
visit-counting mode produces. -/
theorem loop_mode_refines_visit_mode (s : MapState) (n : Nat)
    (hoff : (stepN s n).on_map = false) :
    s.has_loop = some false ∧
    ∃ tr l, hasLoopVisited (numPoses s.map + 1) [] s = some (false, tr) ∧
      part1Aux (n + 1) [] s = some l ∧
      ∀ p, p ∈ l ↔ ∃ g ∈ tr, (g.row, g.col) = p := by
  have hfalse : s.has_loop = some false := has_loop_false_of_exit s n hoff
  refine ⟨hfalse, ?_⟩
  have hfst := hasLoopVisited_fst (numPoses s.map + 1) [] s
  rw [show hasLoopAux (numPoses s.map + 1) [] s = s.has_loop from rfl, hfalse] at hfst
  obtain ⟨pr, hpr⟩ : ∃ pr, hasLoopVisited (numPoses s.map + 1) [] s = some pr := by
    rcases hvis : hasLoopVisited (numPoses s.map + 1) [] s with _ | pr
    · rw [hvis] at hfst; simp at hfst
    · exact ⟨pr, rfl⟩
  have hprflat : pr.1 = false := by
    rw [hpr] at hfst
    simpa using hfst
  obtain ⟨l, hl⟩ := part1Aux_exits n s hoff []
  refine ⟨pr.2, l, ?_, hl, ?_⟩
  · rw [hpr, show pr = (pr.1, pr.2) from rfl, hprflat]
  · intro p
    have hmem1 := part1Aux_mem (n + 1) [] s l hl p
    have hmem2 := hasLoopVisited_false_mem (numPoses s.map + 1) [] s pr.2
      (by rw [hpr, show pr = (pr.1, pr.2) from rfl, hprflat])
    rw [hmem1]
    constructor
    · rintro (habs | ⟨k, hpre, hk⟩)
      · simp at habs
      · refine ⟨(stepN s k).guard, ?_, hk⟩
        rw [hmem2]
        exact Or.inr ⟨k, hpre, rfl⟩
    · rintro ⟨g, hg, hgp⟩
      rw [hmem2] at hg
      rcases hg with habs | ⟨k, hpre, hk⟩
      · simp at habs
      · refine Or.inr ⟨k, hpre, ?_⟩
        rw [hk, hgp]

theorem loop_mode_refines_visit_mode_witness :
    MapState.has_loop ⟨[[MapTile.Empty]], ⟨0, 0, Orientation.Up⟩⟩ = some false ∧
    ∃ tr l,
      hasLoopVisited (numPoses [[MapTile.Empty]] + 1) []
          ⟨[[MapTile.Empty]], ⟨0, 0, Orientation.Up⟩⟩ = some (false, tr) ∧
      part1Aux (1 + 1) [] ⟨[[MapTile.Empty]], ⟨0, 0, Orientation.Up⟩⟩ = some l ∧
      ∀ p, p ∈ l ↔ ∃ g ∈ tr, (g.row, g.col) = p :=
  loop_mode_refines_visit_mode ⟨[[MapTile.Empty]], ⟨0, 0, Orientation.Up⟩⟩ 1 (by decide)

/-! A grid on which part 1 does not terminate: the guard is enclosed by
four obstacles and turns in place forever, never leaving the map. -/

/-- The 3x3 grid `.#.` / `#.#` / `.#.`. -/
def spinMap : List (List MapTile) :=
  [[MapTile.Empty, MapTile.Blocked, MapTile.Empty],
   [MapTile.Blocked, MapTile.Empty, MapTile.Blocked],
   [MapTile.Empty, MapTile.Blocked, MapTile.Empty]]

/-- Guard at the center of `spinMap`, facing up: a valid on-grid pose. -/
def spinState : MapState :=
  ⟨spinMap, ⟨1, 1, Orientation.Up⟩⟩

theorem spin_advance (o : Orientation) :
    MapState.advance ⟨spinMap, ⟨1, 1, o⟩⟩ = ⟨spinMap, ⟨1, 1, o.right90⟩⟩ := by
  cases o <;> decide

theorem spin_part1_diverges (fuel : Nat) :
    ∀ (v : List (Int × Int)) (o : Orientation),
      part1Aux fuel v ⟨spinMap, ⟨1, 1, o⟩⟩ = none := by
  induction fuel with
  | zero => intro v o; rfl
  | succ fuel ih =>
    intro v o
    rw [part1Aux]
    have hon : (⟨spinMap, ⟨1, 1, o⟩⟩ : MapState).on_map = true := by
      show Map.on_map spinMap 1 1 = true
      decide
    rw [if_pos hon, spin_advance]
    exact ih _ o.right90

/-- Claim C6 counterexample: `spinState` is an on-grid pose on a finite
grid, yet the part-1 loop never terminates from it: every fuel bound runs
out, whatever the accumulated visited set. -/
theorem part1_diverges_on_enclosed_guard :
    spinState.on_map = true ∧ Part1Diverges spinState :=
  ⟨by decide, fun fuel v => spin_part1_diverges fuel v Orientation.Up⟩

/-- Claim C6 (amended): visit-counting mode terminates whenever the guard
eventually leaves the grid — fuel one beyond the exit index returns the
visited set; on inputs where the guard never leaves (such as an enclosed
start) the loop runs forever. -/
theorem part1_terminates_of_exits (s : MapState) (n : Nat)
    (hoff : (stepN s n).on_map = false) :
    ∃ l, part1Aux (n + 1) [] s = some l :=
  part1Aux_exits n s hoff []

theorem part1_terminates_of_exits_witness :
    ∃ l, part1Aux (1 + 1) [] ⟨[[MapTile.Empty]], ⟨0, 0, Orientation.Up⟩⟩ = some l :=
  part1_terminates_of_exits ⟨[[MapTile.Empty]], ⟨0, 0, Orientation.Up⟩⟩ 1 (by decide)

/-! Claim C1: the part-2 loop computes the Scenario Search count the spec
describes.  The enumerated sums below bridge the list iteration of the
source to a `Finset` cardinality over the grid cells. -/

theorem get?_getD {α : Type} (l : List α) (n : Nat) (d : α) (h : n < l.length) :
    l.get? n = some (l.getD n d) := by
  rw [List.get?_eq_get h]
  congr 1
  rw [List.getD_eq_getElem l d h]
  rfl

theorem sum_map_enumFrom {α : Type} (f : Nat × α → Nat) (d : α) :
    ∀ (l : List α) (k : Nat),
      ((l.enumFrom k).map f).sum = ∑ i ∈ Finset.range l.length, f (k + i, l.getD i d) := by
  intro l
  induction l with
  | nil => intro k; simp
  | cons a l ih =>
    intro k
    rw [show (a :: l).enumFrom k = (k, a) :: l.enumFrom (k + 1) from rfl]
    rw [List.map_cons, List.sum_cons, ih (k + 1)]
    rw [show (a :: l).length = l.length + 1 from rfl]
    rw [Finset.sum_range_succ']
    rw [Nat.add_comm (f (k, a))]
    congr 1
    apply Finset.sum_congr rfl
    intro i _
    have h1 : (a :: l).getD (i + 1) d = l.getD i d := by simp [List.getD]
    have h2 : k + (i + 1) = k + 1 + i := by omega
    rw [h1, h2]

theorem countP_enumFrom {α : Type} (p : Nat × α → Bool) (d : α) :
    ∀ (l : List α) (k : Nat),
      (l.enumFrom k).countP p =
        ∑ i ∈ Finset.range l.length, if p (k + i, l.getD i d) = true then 1 else 0 := by
  intro l
  induction l with
  | nil => intro k; simp
  | cons a l ih =>
    intro k
    rw [show (a :: l).enumFrom k = (k, a) :: l.enumFrom (k + 1) from rfl]
    rw [List.countP_cons, ih (k + 1)]
    rw [show (a :: l).length = l.length + 1 from rfl]
    rw [Finset.sum_range_succ']
    congr 1
    apply Finset.sum_congr rfl
    intro i _
    have h1 : (a :: l).getD (i + 1) d = l.getD i d := by simp [List.getD]
    have h2 : k + (i + 1) = k + 1 + i := by omega
    rw [h1, h2]

theorem part2_eq_double_sum (s : MapState) :
    part2 s = ∑ r ∈ Finset.range s.map.length,
      ∑ c ∈ Finset.range ((s.map.getD r []).length),
        if (!(isBlockedTile ((s.map.getD r []).getD c MapTile.Empty) ||
              (decide (s.guard.row = (r : Int)) && decide (s.guard.col = (c : Int)))) &&
            decide ((trialState s r c).has_loop = some true)) = true
        then 1 else 0 := by
  rw [part2]
  rw [show s.map.enum = s.map.enumFrom 0 from rfl]
  rw [sum_map_enumFrom _ ([] : List MapTile)]
  apply Finset.sum_congr rfl
  intro r _
  simp only [Nat.zero_add]
  rw [show (s.map.getD r []).enum = (s.map.getD r []).enumFrom 0 from rfl]
  rw [countP_enumFrom _ MapTile.Empty]
  apply Finset.sum_congr rfl
  intro c _
  simp only [Nat.zero_add]

/-- Scenario Search count, stated the way the specification describes it:
the number of grid cells that hold Empty in the base grid and are not the
guard's starting cell such that blocking that single cell makes the loop
detector report `Loop` from the original pose. -/
def loopTrialCount (s : MapState) : Nat :=
  ((Finset.range s.map.length ×ˢ Finset.range (Map.cols s.map).toNat).filter (fun rc =>
    Map.get s.map (rc.1 : Int) (rc.2 : Int) = some MapTile.Empty ∧
    ¬(s.guard.row = (rc.1 : Int) ∧ s.guard.col = (rc.2 : Int)) ∧
    (trialState s rc.1 rc.2).has_loop = some true)).card

theorem get_eq_getD (m : List (List MapTile)) (hrect : Rectangular m) (r c : Nat)
    (hr : r < m.length) (hc : c < (m.getD r []).length) :
    Map.get m (r : Int) (c : Int) = some ((m.getD r []).getD c MapTile.Empty) := by
  have hmem : m.getD r [] ∈ m := by
    rw [List.getD_eq_getElem m [] hr]
    exact List.getElem_mem hr
  have hcols := hrect _ hmem
  have hon : Map.on_map m (r : Int) (c : Int) = true := by
    rw [on_map_iff]
    refine ⟨Int.natCast_nonneg r, ?_, Int.natCast_nonneg c, ?_⟩
    · rw [Map.rows]
      exact_mod_cast hr
    · rw [← hcols]
      exact_mod_cast hc
  rw [Map.get, if_pos hon]
  rw [Int.toNat_natCast, Int.toNat_natCast]
  rw [get?_getD m r [] hr]
  rw [Option.some_bind]
  exact get?_getD _ c MapTile.Empty hc

/-- Claim C1: for a rectangular grid and on-grid start, the part-2 result
equals the Scenario Search count over Empty non-start cells whose blocked
trial loops. -/
theorem part2_matches_scenario_search (s : MapState) (hrect : Rectangular s.map)
    (_hong : s.on_map = true) :
    part2 s = loopTrialCount s := by
  rw [part2_eq_double_sum, loopTrialCount]
  rw [Finset.card_filter, Finset.sum_product]
  apply Finset.sum_congr rfl
  intro r hr
  rw [Finset.mem_range] at hr
  have hmem : s.map.getD r [] ∈ s.map := by
    rw [List.getD_eq_getElem s.map [] hr]
    exact List.getElem_mem hr
  have hcols := hrect _ hmem
  have hrowlen : (s.map.getD r []).length = (Map.cols s.map).toNat := by omega
  rw [hrowlen]
  apply Finset.sum_congr rfl
  intro c hc
  rw [Finset.mem_range] at hc
  have hcc : c < (s.map.getD r []).length := by omega
  have hget := get_eq_getD s.map hrect r c hr hcc
  have htile : (isBlockedTile ((s.map.getD r []).getD c MapTile.Empty) = false) ↔
      Map.get s.map (r : Int) (c : Int) = some MapTile.Empty := by
    rw [hget]
    cases h : (s.map.getD r []).getD c MapTile.Empty <;> simp [isBlockedTile, h]
  have hiff : ((!(isBlockedTile ((s.map.getD r []).getD c MapTile.Empty) ||
        (decide (s.guard.row = (r : Int)) && decide (s.guard.col = (c : Int)))) &&
      decide ((trialState s r c).has_loop = some true)) = true) ↔
      (Map.get s.map (r : Int) (c : Int) = some MapTile.Empty ∧
        ¬(s.guard.row = (r : Int) ∧ s.guard.col = (c : Int)) ∧
        (trialState s r c).has_loop = some true) := by
    rw [Bool.and_eq_true, decide_eq_true_eq]
    rw [Bool.not_eq_true']
    rw [Bool.or_eq_false_iff]
    rw [show (decide (s.guard.row = (r : Int)) && decide (s.guard.col = (c : Int))) =
        decide (s.guard.row = (r : Int) ∧ s.guard.col = (c : Int)) from
      (Bool.decide_and (s.guard.row = (r : Int)) (s.guard.col = (c : Int))).symm]
    rw [decide_eq_false_iff_not, htile]
    constructor
    · rintro ⟨⟨h1, h2⟩, h3⟩
      exact ⟨h1, h2, h3⟩
    · rintro ⟨h1, h2, h3⟩
      exact ⟨⟨h1, h2⟩, h3⟩
  simp only [hiff]

theorem part2_matches_scenario_search_witness :
    part2 ⟨[[MapTile.Empty, MapTile.Empty]], ⟨0, 0, Orientation.Up⟩⟩ =
      loopTrialCount ⟨[[MapTile.Empty, MapTile.Empty]], ⟨0, 0, Orientation.Up⟩⟩ :=
  part2_matches_scenario_search ⟨[[MapTile.Empty, MapTile.Empty]], ⟨0, 0, Orientation.Up⟩⟩
    (by decide) (by decide)

/-! Claims C5 and C10: behaviour of `MapState::parse`. -/

theorem getLastD_append {α : Type} (l1 l2 : List α) (d : α) :
    (l1 ++ l2).getLastD d = l2.getLastD (l1.getLastD d) := by
  induction l1 generalizing d with
  | nil => rfl
  | cons a l1 ih =>
    rw [List.cons_append, List.getLastD_cons, List.getLastD_cons]
    exact ih a

theorem parseRowAux_spec (row : Nat) (cs : List Char) : ∀ (col : Nat) (g : Guard),
    (∀ c ∈ cs, validCharB c = true) →
    ∃ ts, parseRowAux row col cs g = some (ts, (rowMarkersFrom row col cs).getLastD g) ∧
      ts.length = cs.length ∧
      ∀ i c, cs.get? i = some c → (parseOrient c).isSome = true →
        ts.get? i = some MapTile.Empty := by
  induction cs with
  | nil =>
    intro col g _
    refine ⟨[], rfl, rfl, ?_⟩
    intro i c h
    rw [show (([] : List Char)).get? i = none from rfl] at h
    simp at h
  | cons c cs ih =>
    intro col g hv
    have hvr : ∀ x ∈ cs, validCharB x = true := fun x hx => hv x (List.mem_cons_of_mem c hx)
    rcases ho : parseOrient c with _ | o
    · have hvc : validCharB c = true := hv c (List.mem_cons_self c cs)
      have htile : ∃ t, parseTile c = some t := by
        rw [validCharB, ho] at hvc
        simp at hvc
        rcases hvc with h1 | h1
        · subst h1
          exact ⟨MapTile.Empty, by decide⟩
        · subst h1
          exact ⟨MapTile.Blocked, by decide⟩
      obtain ⟨t, ht⟩ := htile
      obtain ⟨ts, hts, hlen, hmk⟩ := ih (col + 1) g hvr
      refine ⟨t :: ts, ?_, ?_, ?_⟩
      · simp only [parseRowAux, ho, ht, hts, Option.map_some']
        simp only [rowMarkersFrom, ho]
      · simp [hlen]
      · intro i x hx hor
        cases i with
        | zero =>
          rw [show (c :: cs).get? 0 = some c from rfl] at hx
          have hxc := Option.some.inj hx
          subst hxc
          rw [ho] at hor
          simp at hor
        | succ i =>
          rw [show (c :: cs).get? (i + 1) = cs.get? i from rfl] at hx
          rw [show (t :: ts).get? (i + 1) = ts.get? i from rfl]
          exact hmk i x hx hor
    · obtain ⟨ts, hts, hlen, hmk⟩ := ih (col + 1) ⟨(row : Int), (col : Int), o⟩ hvr
      refine ⟨MapTile.Empty :: ts, ?_, ?_, ?_⟩
      · simp only [parseRowAux, ho, hts, Option.map_some']
        simp only [rowMarkersFrom, ho, List.getLastD_cons]
      · simp [hlen]
      · intro i x hx hor
        cases i with
        | zero => rfl
        | succ i =>
          rw [show (c :: cs).get? (i + 1) = cs.get? i from rfl] at hx
          rw [show (MapTile.Empty :: ts).get? (i + 1) = ts.get? i from rfl]
          exact hmk i x hx hor

theorem parseAux_spec (lines : List String) : ∀ (row : Nat) (g : Guard),
    (∀ l ∈ lines, ∀ c ∈ l.toList, validCharB c = true) →
    ∃ m, parseAux row lines g = some (m, (markersFrom row lines).getLastD g) ∧
      m.length = lines.length ∧
      ∀ i l, lines.get? i = some l →
        ∃ ts, m.get? i = some ts ∧ ts.length = l.toList.length ∧
          ∀ j c, l.toList.get? j = some c → (parseOrient c).isSome = true →
            ts.get? j = some MapTile.Empty := by
  induction lines with
  | nil =>
    intro row g _
    refine ⟨[], rfl, rfl, ?_⟩
    intro i l h
    rw [show (([] : List String)).get? i = none from rfl] at h
    simp at h
  | cons l lines ih =>
    intro row g hv
    obtain ⟨ts, hts, htlen, htmk⟩ :=
      parseRowAux_spec row l.toList 0 g (hv l (List.mem_cons_self l lines))
    obtain ⟨m, hm, hmlen, hmk⟩ := ih (row + 1) ((rowMarkersFrom row 0 l.toList).getLastD g)
      (fun x hx => hv x (List.mem_cons_of_mem l hx))
    refine ⟨ts :: m, ?_, ?_, ?_⟩
    · simp only [parseAux, hts, Option.some_bind, hm, Option.map_some']
      rw [show markersFrom row (l :: lines) =
          rowMarkersFrom row 0 l.toList ++ markersFrom (row + 1) lines from rfl]
      rw [getLastD_append]
    · simp [hmlen]
    · intro i x hx
      cases i with
      | zero =>
        rw [show (l :: lines).get? 0 = some l from rfl] at hx
        have hxl := Option.some.inj hx
        subst hxl
        exact ⟨ts, rfl, htlen, htmk⟩
      | succ i =>
        rw [show (l :: lines).get? (i + 1) = lines.get? i from rfl] at hx
        obtain ⟨ts2, h1, h2, h3⟩ := hmk i x hx
        refine ⟨ts2, ?_, h2, h3⟩
        rw [show (ts :: m).get? (i + 1) = m.get? i from rfl]
        exact h1

theorem rowMarkersFrom_mem (row : Nat) (cs : List Char) : ∀ (col : Nat) (g : Guard),
    g ∈ rowMarkersFrom row col cs →
    ∃ j c, cs.get? j = some c ∧ parseOrient c = some g.orientation ∧
      g.row = (row : Int) ∧ g.col = ((col + j : Nat) : Int) := by
  induction cs with
  | nil =>
    intro col g h
    simp [rowMarkersFrom] at h
  | cons c cs ih =>
    intro col g h
    rcases ho : parseOrient c with _ | o
    · rw [rowMarkersFrom, ho] at h
      obtain ⟨j, x, h1, h2, h3, h4⟩ := ih (col + 1) g h
      refine ⟨j + 1, x, ?_, h2, h3, ?_⟩
      · rw [show (c :: cs).get? (j + 1) = cs.get? j from rfl]
        exact h1
      · rw [h4]
        congr 1
        omega
    · rw [rowMarkersFrom, ho] at h
      rcases List.mem_cons.mp h with heq | h2
      · subst heq
        exact ⟨0, c, rfl, by rw [ho], rfl, rfl⟩
      · obtain ⟨j, x, h1, h2, h3, h4⟩ := ih (col + 1) g h2
        refine ⟨j + 1, x, ?_, h2, h3, ?_⟩
        · rw [show (c :: cs).get? (j + 1) = cs.get? j from rfl]
          exact h1
        · rw [h4]
          congr 1
          omega

theorem markersFrom_mem (lines : List String) : ∀ (row : Nat) (g : Guard),
    g ∈ markersFrom row lines →
    ∃ i l, lines.get? i = some l ∧ g ∈ rowMarkersFrom (row + i) 0 l.toList := by
  induction lines with
  | nil =>
    intro row g h
    simp [markersFrom] at h
  | cons l lines ih =>
    intro row g h
    rw [markersFrom] at h
    rcases List.mem_append.mp h with h1 | h2
    · exact ⟨0, l, rfl, h1⟩
    · obtain ⟨i, x, h3, h4⟩ := ih (row + 1) g h2
      refine ⟨i + 1, x, ?_, ?_⟩
      · rw [show (l :: lines).get? (i + 1) = lines.get? i from rfl]
        exact h3
      · rw [show row + (i + 1) = row + 1 + i from by omega]
        exact h4

/-- Claim C10: on any input over the accepted alphabet, parsing succeeds;
the resulting guard is the last marker in row-major order (the initial
`(0, 0, Up)` pose when there is no marker), and every marker cell holds
Empty terrain in the parsed grid. -/
theorem parse_marker_semantics (lines : List String)
    (hv : ∀ l ∈ lines, ∀ c ∈ l.toList, validCharB c = true) :
    ∃ st, MapState.parse lines = some st ∧
      st.guard = (markersOf lines).getLastD ⟨0, 0, Orientation.Up⟩ ∧
      ∀ g ∈ markersOf lines, lookup2 st.map g.row.toNat g.col.toNat = some MapTile.Empty := by
  obtain ⟨m, hm, hmlen, hmk⟩ := parseAux_spec lines 0 ⟨0, 0, Orientation.Up⟩ hv
  refine ⟨⟨m, (markersFrom 0 lines).getLastD ⟨0, 0, Orientation.Up⟩⟩, ?_, rfl, ?_⟩
  · rw [MapState.parse, hm]
    rfl
  · intro g hg
    obtain ⟨i, l, hl, hrm⟩ := markersFrom_mem lines 0 g hg
    rw [show (0 : Nat) + i = i from by omega] at hrm
    obtain ⟨j, c, hc, hoc, hrow, hcol⟩ := rowMarkersFrom_mem i l.toList 0 g hrm
    rw [show ((0 + j : Nat) : Int) = (j : Int) from by push_cast; omega] at hcol
    obtain ⟨ts, hts, htslen, htmk⟩ := hmk i l hl
    have hempty := htmk j c hc (by rw [hoc]; rfl)
    rw [lookup2, hrow, hcol, Int.toNat_natCast, Int.toNat_natCast, hts, Option.some_bind]
    exact hempty

theorem parse_marker_semantics_witness :
    ∃ st, MapState.parse ["><", ".v"] = some st ∧
      st.guard = (markersOf ["><", ".v"]).getLastD ⟨0, 0, Orientation.Up⟩ ∧
      ∀ g ∈ markersOf ["><", ".v"],
        lookup2 st.map g.row.toNat g.col.toNat = some MapTile.Empty :=
  parse_marker_semantics ["><", ".v"] (by decide)

/-- Claim C5 counterexample: the ragged input `["." , ".."]` is accepted by
construction with no error, and the produced grid has rows of unequal
lengths — no rectangularity check exists in `MapState::parse`. -/
theorem parse_accepts_ragged_input :
    MapState.parse [".", ".."] =
      some ⟨[[MapTile.Empty], [MapTile.Empty, MapTile.Empty]], ⟨0, 0, Orientation.Up⟩⟩ ∧
    ¬Rectangular [[MapTile.Empty], [MapTile.Empty, MapTile.Empty]] := by
  constructor
  · decide
  · decide

/-- Claim C5 (amended): construction performs no rectangularity check — it
succeeds on every input over the accepted alphabet and reproduces each
line's length as the corresponding row's length, so a ragged input yields
a grid value with unequal row lengths. -/
theorem parse_preserves_line_lengths (lines : List String)
    (hv : ∀ l ∈ lines, ∀ c ∈ l.toList, validCharB c = true) :
    ∃ st, MapState.parse lines = some st ∧
      st.map.map List.length = lines.map (fun l => l.toList.length) := by
  obtain ⟨m, hm, hmlen, hmk⟩ := parseAux_spec lines 0 ⟨0, 0, Orientation.Up⟩ hv
  refine ⟨⟨m, (markersFrom 0 lines).getLastD ⟨0, 0, Orientation.Up⟩⟩, ?_, ?_⟩
  · rw [MapState.parse, hm]
    rfl
  · apply List.ext
    intro n
    rw [List.get?_map, List.get?_map]
    rcases hn : lines.get? n with _ | l
    · have hmn : m.get? n = none := by
        rw [List.get?_eq_none] at hn ⊢
        omega
      rw [hmn]
      rfl
    · obtain ⟨ts, hts, htslen, _⟩ := hmk n l hn
      rw [hts]
      simp [htslen]

theorem parse_preserves_line_lengths_witness :
    ∃ st, MapState.parse [".", ".."] = some st ∧
      st.map.map List.length = [".", ".."].map (fun l => l.toList.length) :=
  parse_preserves_line_lengths [".", ".."] (by decide)

end Aoc06
